import Mathlib

/-!
# HomemadeDB: the relational operators of `src/DB.cpp`

A shallow embedding of `class RelationalDatabase` (`select`, `project`, `join`,
`getColumnIndex`, and the loader `loadCSV`, `parseCSVLine`, `cleanToken`) and the
properties of the specification that concern them.

Modelling conventions.

* `vector<string>` is `List String`, `vector<vector<string>>` is
  `List (List String)`; `push_back` appends at the end.
* A C++ exception is an `Except.error`; the exception classes used by the source
  (`invalid_argument`, `runtime_error`) are constructors of `Failure`, carrying the
  `what()` text the source builds.
* `v[i]` on a `vector` is unchecked in C++: an index outside the vector is undefined
  behaviour.  The embedding makes this explicit: `cell` returns
  `Failure.undefined_behaviour` there, which is not an exception of the program.
* `distance(v.begin(), find(v.begin(), v.end(), x))` is `findIndex v x`: the first
  position of `x`, or `v.size()` when `x` does not occur (`find` returned `end()`).
  Positions are natural numbers (the source stores them in `int`; schemas of 2^31
  columns or more are outside this model).
* `unordered_map<string, vector<vector<string>>>` is an association list with one
  entry per key; the source never enumerates the map, it only uses `operator[]` and
  `find`, both of which are modelled.
-/

namespace HomemadeDB

/-- What a member function can end in other than a returned value. -/
inductive Failure where
  | invalid_argument (what : String)
  | runtime_error (what : String)
  | undefined_behaviour
  deriving DecidableEq, Repr

deriving instance DecidableEq for Except

/-- The two data members of `class RelationalDatabase`. -/
structure RelationalDatabase where
  data : List (List String)
  columns : List String
  deriving DecidableEq, Repr

/-- A default-constructed `RelationalDatabase result;`. -/
def RelationalDatabase.empty : RelationalDatabase := { data := [], columns := [] }

/-- The value of `distance(v.begin(), find(v.begin(), v.end(), x))`. -/
def findIndex : List String → String → Nat
  | [], _ => 0
  | c :: rest, x => if c = x then 0 else findIndex rest x + 1

/-- The unchecked access `row[i]`. -/
def cell (row : List String) (i : Nat) : Except Failure String :=
  match row[i]? with
  | some c => .ok c
  | none => .error .undefined_behaviour

/-- `RelationalDatabase::getColumnIndex` (DB.cpp 162-166). -/
def getColumnIndex (db : RelationalDatabase) (col : String) : Except Failure Nat :=
  if findIndex db.columns col = db.columns.length then
    .error (.invalid_argument ("Column not found: " ++ col))
  else
    .ok (findIndex db.columns col)

/-- The loop `for (const auto& row : data)` of `select` (DB.cpp 78-82); the second
argument is `result.data` so far. -/
def selectLoop (colIndex : Nat) (value : String) :
    List (List String) → List (List String) → Except Failure (List (List String))
  | [], acc => .ok acc
  | row :: rest, acc =>
    match cell row colIndex with
    | .error e => .error e
    | .ok c => if c = value then selectLoop colIndex value rest (acc ++ [row])
               else selectLoop colIndex value rest acc

/-- `RelationalDatabase::select` (DB.cpp 71-84). -/
def select (db : RelationalDatabase) (column value : String) :
    Except Failure RelationalDatabase :=
  let colIndex := findIndex db.columns column
  match selectLoop colIndex value db.data [] with
  | .error e => .error e
  | .ok rows => .ok { data := rows, columns := db.columns }

/-- The loop `for (const auto& col : cols)` of `project` (DB.cpp 90-95); the state is
`(indices, result.columns)`. -/
def projectCols (columns : List String) :
    List String → List Nat × List String → Except Failure (List Nat × List String)
  | [], st => .ok st
  | col :: rest, (indices, rcols) =>
    if findIndex columns col = columns.length then
      .error (.invalid_argument ("Invalid column: " ++ col))
    else
      projectCols columns rest (indices ++ [findIndex columns col], rcols ++ [col])

/-- The loop `for (int idx : indices)` of `project` (DB.cpp 99-101); the third
argument is `projectedRow` so far. -/
def projectRow (row : List String) : List Nat → List String → Except Failure (List String)
  | [], projectedRow => .ok projectedRow
  | idx :: rest, projectedRow =>
    match cell row idx with
    | .error e => .error e
    | .ok c => projectRow row rest (projectedRow ++ [c])

/-- The loop `for (const auto& row : data)` of `project` (DB.cpp 97-103). -/
def projectLoop (indices : List Nat) :
    List (List String) → List (List String) → Except Failure (List (List String))
  | [], acc => .ok acc
  | row :: rest, acc =>
    match projectRow row indices [] with
    | .error e => .error e
    | .ok projectedRow => projectLoop indices rest (acc ++ [projectedRow])

/-- `RelationalDatabase::project` (DB.cpp 86-105). -/
def project (db : RelationalDatabase) (cols : List String) :
    Except Failure RelationalDatabase :=
  match projectCols db.columns cols ([], RelationalDatabase.empty.columns) with
  | .error e => .error e
  | .ok (indices, rcols) =>
    match projectLoop indices db.data RelationalDatabase.empty.data with
    | .error e => .error e
    | .ok rows => .ok { data := rows, columns := rcols }

/-- The `unordered_map<string, vector<vector<string>>>` of `join`. -/
abbrev RowMap := List (String × List (List String))

/-- `m.find(key)`: the bucket stored under `key`, `none` for `m.end()`. -/
def RowMap.find : RowMap → String → Option (List (List String))
  | [], _ => none
  | (k, bucket) :: rest, key => if k = key then some bucket else RowMap.find rest key

/-- `m[key].push_back(row)`: `operator[]` creates an empty bucket when `key` has none. -/
def RowMap.pushBack : RowMap → String → List String → RowMap
  | [], key, row => [(key, [row])]
  | (k, bucket) :: rest, key, row =>
    if k = key then (k, bucket ++ [row]) :: rest
    else (k, bucket) :: RowMap.pushBack rest key row

/-- The loop `for (const auto& row : other.data)` that builds `otherMap`
(DB.cpp 114-116). -/
def buildMap (otherCol : Nat) : List (List String) → RowMap → Except Failure RowMap
  | [], otherMap => .ok otherMap
  | row :: rest, otherMap =>
    match cell row otherCol with
    | .error e => .error e
    | .ok key => buildMap otherCol rest (otherMap.pushBack key row)

/-- The loop `for (const auto& col : other.columns)` that completes `result.columns`
(DB.cpp 120-124); the third argument is `result.columns` so far. -/
def mergeSchema (columns : List String) : List String → List String → List String
  | [], rcols => rcols
  | col :: rest, rcols =>
    if findIndex columns col = columns.length then mergeSchema columns rest (rcols ++ [col])
    else mergeSchema columns rest rcols

/-- The loop `for (size_t i = 0; i < otherRow.size(); ++i)` (DB.cpp 132-136), started
at index `i` with the cells `otherRow[i], otherRow[i+1], ...` still to visit; the last
argument is `merged` so far. -/
def mergeCells (otherCol : Nat) : Nat → List String → List String → List String
  | _, [], merged => merged
  | i, c :: rest, merged =>
    if i ≠ otherCol then mergeCells otherCol (i + 1) rest (merged ++ [c])
    else mergeCells otherCol (i + 1) rest merged

/-- The loop `for (const auto& otherRow : otherMap[key])` (DB.cpp 130-138); the last
argument is `result.data` so far. -/
def emitBucket (otherCol : Nat) (row : List String) :
    List (List String) → List (List String) → List (List String)
  | [], acc => acc
  | otherRow :: rest, acc =>
    emitBucket otherCol row rest (acc ++ [mergeCells otherCol 0 otherRow row])

/-- The loop `for (const auto& row : data)` that performs the join (DB.cpp 127-140). -/
def joinLoop (thisCol otherCol : Nat) (otherMap : RowMap) :
    List (List String) → List (List String) → Except Failure (List (List String))
  | [], acc => .ok acc
  | row :: rest, acc =>
    match cell row thisCol with
    | .error e => .error e
    | .ok key =>
      match otherMap.find key with
      | none => joinLoop thisCol otherCol otherMap rest acc
      | some bucket =>
        joinLoop thisCol otherCol otherMap rest (emitBucket otherCol row bucket acc)

/-- `RelationalDatabase::join` (DB.cpp 107-142); `db` is `*this`. -/
def join (db other : RelationalDatabase) (joinCol : String) :
    Except Failure RelationalDatabase :=
  match getColumnIndex db joinCol with
  | .error e => .error e
  | .ok thisCol =>
    match getColumnIndex other joinCol with
    | .error e => .error e
    | .ok otherCol =>
      match buildMap otherCol other.data [] with
      | .error e => .error e
      | .ok otherMap =>
        let rcols := mergeSchema db.columns other.columns db.columns
        match joinLoop thisCol otherCol otherMap db.data RelationalDatabase.empty.data with
        | .error e => .error e
        | .ok rows => .ok { data := rows, columns := rcols }

/-- Invariant I1 of the data model: every row has as many cells as there are columns. -/
def WellFormed (db : RelationalDatabase) : Prop :=
  ∀ row ∈ db.data, row.length = db.columns.length

instance (db : RelationalDatabase) : Decidable (WellFormed db) := by
  unfold WellFormed; infer_instance

/-- The spec's error kind `ColumnNotFound`: the `invalid_argument` exceptions, which the
source throws only for a name that `find` did not locate in a schema. -/
def Failure.isColumnNotFound : Failure → Bool
  | .invalid_argument _ => true
  | _ => false

/-- The tables of the specification's scenarios. -/
def leftTable : RelationalDatabase :=
  { columns := ["PartNo", "Name"], data := [["1", "Bolt"], ["2", "Screw"]] }

def rightTable : RelationalDatabase :=
  { columns := ["PartNo", "Dept"], data := [["1", "23"], ["1", "07"], ["3", "12"]] }

/-- Two tables that share the name `Name` besides the join key `PartNo`; each has
pairwise distinct column names and rows as long as its schema. -/
def buyersTable : RelationalDatabase :=
  { columns := ["PartNo", "Name"], data := [["1", "Bolt"]] }

def suppliersTable : RelationalDatabase :=
  { columns := ["PartNo", "Name", "Dept"], data := [["1", "Acme", "23"]] }

/-- The naive nested-loop join in the specification's words: the left rows in their
original order and, for each of them, the right rows in their original order whose
join-key cell equals the left row's, each pair merged by `join`'s own row merge. -/
def nestedLoopJoin (db other : RelationalDatabase) (joinCol : String) : List (List String) :=
  db.data.flatMap (fun row =>
    (other.data.filter (fun otherRow =>
        decide (otherRow[findIndex other.columns joinCol]? =
          row[findIndex db.columns joinCol]?))).map
      (fun otherRow => mergeCells (findIndex other.columns joinCol) 0 otherRow row))

/-- The bucket `find` reaches under `key`, empty when `find` returns `end()`. -/
def RowMap.bucket (m : RowMap) (key : String) : List (List String) :=
  (m.find key).getD []

/-- The loop `for (size_t i = 0; i < otherRow.size(); ++i)` (DB.cpp 132-136) once more,
this time with the unchecked access `otherRow[i]` spelled out: `n` iterations remain
(`n = otherRow.size() - i`), and the cell is read only when `i != otherCol`. -/
def mergeIndexed (otherCol : Nat) (otherRow : List String) :
    Nat → Nat → List String → Except Failure (List String)
  | 0, _, merged => .ok merged
  | n + 1, i, merged =>
    if i ≠ otherCol then
      match cell otherRow i with
      | .error e => .error e
      | .ok c => mergeIndexed otherCol otherRow n (i + 1) (merged ++ [c])
    else mergeIndexed otherCol otherRow n (i + 1) merged

/-! ### The loader (`parseCSVLine`, `cleanToken`, `loadCSV`)

A `std::string` is a `String`, read through its list of characters; `s[i]`, `front`,
`back`, `erase`, `pop_back` and `substr` act on that list.  `isspace` is the classifier of
the "C" locale (the program never calls `setlocale`).  A character outside ASCII stands
for the bytes of its UTF-8 encoding, none of which is a double quote, a comma or, in that
locale, whitespace, so the byte-wise source treats it as the embedding treats the
character.  The file behind the `ifstream` is
the list of lines that successive `getline` calls deliver, or `none` when it cannot be
opened.  `loadCSV` assigns to the members of `*this` while it runs, so its embedding
returns the object as the call leaves it together with the outcome. -/

/-- `isspace(ch)` in the "C" locale: space, `\t`, `\n`, `\v`, `\f`, `\r`. -/
def isspace (ch : Char) : Bool :=
  ch = ' ' || (9 ≤ ch.toNat && ch.toNat ≤ 13)

/-- `RelationalDatabase::cleanToken` (DB.cpp 33-49). -/
def cleanToken (token : String) : String :=
  let t0 := token.data
  let t1 := if !t0.isEmpty && t0.head? = some '"' then t0.tail else t0
  let t2 := if !t1.isEmpty && t1.getLast? = some '"' then t1.dropLast else t1
  let t3 := t2.dropWhile isspace
  let t4 := t3.rdropWhile isspace
  String.mk t4

/-- `line.substr(pos, n)` for `pos <= line.size()`. -/
def substr (line : String) (pos n : Nat) : String :=
  String.mk ((line.data.drop pos).take n)

/-- `line.substr(pos)` for `pos <= line.size()`. -/
def substrFrom (line : String) (pos : Nat) : String :=
  String.mk (line.data.drop pos)

/-- The loop `for (size_t i = 0; i < line.length(); ++i)` of `parseCSVLine`
(DB.cpp 22-28), at index `i` with the characters `line[i], line[i+1], ...` still to
visit; the state is `tokens`, `start`, `inQuotes`. -/
def parseLoop (line : String) :
    Nat → List Char → List String → Nat → Bool → List String × Nat × Bool
  | _, [], tokens, start, inQuotes => (tokens, start, inQuotes)
  | i, ch :: rest, tokens, start, inQuotes =>
    if ch = '"' then parseLoop line (i + 1) rest tokens start (!inQuotes)
    else if ch = ',' ∧ inQuotes = false then
      parseLoop line (i + 1) rest (tokens ++ [cleanToken (substr line start (i - start))])
        (i + 1) inQuotes
    else parseLoop line (i + 1) rest tokens start inQuotes

/-- `RelationalDatabase::parseCSVLine` (DB.cpp 17-31). -/
def parseCSVLine (line : String) : List String :=
  match parseLoop line 0 line.data [] 0 false with
  | (tokens, start, _) => tokens ++ [cleanToken (substrFrom line start)]

/-- The loop `while (getline(file, line))` of `loadCSV` (DB.cpp 62-68) over the lines
still in the file; the last argument is the member `data` so far, and the result is
`data` as the loop leaves it together with the outcome. -/
def loadLoop (filename : String) (columns : List String) :
    List String → List (List String) → List (List String) × Except Failure Unit
  | [], data => (data, .ok ())
  | line :: rest, data =>
    if (parseCSVLine line).length ≠ columns.length then
      (data, .error (.runtime_error ("CSV format error in " ++ filename)))
    else loadLoop filename columns rest (data ++ [parseCSVLine line])

/-- `RelationalDatabase::loadCSV` (DB.cpp 52-69) called on the object `db`; `file` is
`none` when the `ifstream` fails to open.  Returns the object after the call and the
outcome. -/
def loadCSV (db : RelationalDatabase) (filename : String) (file : Option (List String)) :
    RelationalDatabase × Except Failure Unit :=
  match file with
  | none => (db, .error (.runtime_error ("Failed to open: " ++ filename)))
  | some [] => (db, .ok ())
  | some (header :: lines) =>
    match loadLoop filename (parseCSVLine header) lines db.data with
    | (data, outcome) => ({ data := data, columns := parseCSVLine header }, outcome)

/-- The number of commas of `line` that lie outside double-quoted regions, in the
specification's words: the positions that hold a comma and are preceded by an even
number of double-quote characters. -/
def commasOutsideQuotes (line : String) : Nat :=
  (List.range line.data.length).countP (fun i =>
    decide (line.data[i]? = some ',') && decide ((line.data.take i).count '"' % 2 = 0))

/-! ### The operators as runs over the objects they can reach

`select`, `project` and `join` once more, statement by statement, over a store that holds
the object the member function is called on (`*this`), the table passed to `join`
(`other`) and the local `result`.  Every assignment and `push_back` of the source is a
write to the object it names; locals that are not tables (`indices`, `projectedRow`,
`otherMap`, `merged`) stay arguments of the loops as above.  A run returns the store as
the call leaves it and the outcome; the table returned to the caller is `result`.  At an
out-of-range access the run stops with the store it had. -/

/-- The tables a call can reach. -/
structure Store where
  self : RelationalDatabase
  other : RelationalDatabase
  result : RelationalDatabase

/-- The declaration `RelationalDatabase result;`. -/
def Store.declareResult (st : Store) : Store :=
  { st with result := RelationalDatabase.empty }

/-- The assignment `result.columns = cols`. -/
def Store.setColumns (st : Store) (cols : List String) : Store :=
  { st with result := { st.result with columns := cols } }

/-- The statement `result.columns.push_back(col)`. -/
def Store.pushColumn (st : Store) (col : String) : Store :=
  { st with result := { st.result with columns := st.result.columns ++ [col] } }

/-- The statement `result.data.push_back(row)`. -/
def Store.pushRow (st : Store) (row : List String) : Store :=
  { st with result := { st.result with data := st.result.data ++ [row] } }

/-- The row loop of `select` (DB.cpp 78-82). -/
def selectLoopS (colIndex : Nat) (value : String) :
    List (List String) → Store → Store × Except Failure Unit
  | [], st => (st, .ok ())
  | row :: rest, st =>
    match cell row colIndex with
    | .error e => (st, .error e)
    | .ok c => if c = value then selectLoopS colIndex value rest (st.pushRow row)
               else selectLoopS colIndex value rest st

/-- The body of `select` (DB.cpp 72-83). -/
def selectRun (column value : String) (st : Store) : Store × Except Failure Unit :=
  let st1 := st.declareResult
  let st2 := st1.setColumns st1.self.columns
  let colIndex := findIndex st2.self.columns column
  selectLoopS colIndex value st2.self.data st2

/-- The name loop of `project` (DB.cpp 90-95); the second argument is `indices`. -/
def projectColsS : List String → List Nat → Store → Store × Except Failure (List Nat)
  | [], indices, st => (st, .ok indices)
  | col :: rest, indices, st =>
    if findIndex st.self.columns col = st.self.columns.length then
      (st, .error (.invalid_argument ("Invalid column: " ++ col)))
    else
      projectColsS rest (indices ++ [findIndex st.self.columns col]) (st.pushColumn col)

/-- The row loop of `project` (DB.cpp 97-103). -/
def projectLoopS (indices : List Nat) :
    List (List String) → Store → Store × Except Failure Unit
  | [], st => (st, .ok ())
  | row :: rest, st =>
    match projectRow row indices [] with
    | .error e => (st, .error e)
    | .ok projectedRow => projectLoopS indices rest (st.pushRow projectedRow)

/-- The body of `project` (DB.cpp 87-104). -/
def projectRun (cols : List String) (st : Store) : Store × Except Failure Unit :=
  match projectColsS cols [] st.declareResult with
  | (st1, .error e) => (st1, .error e)
  | (st1, .ok indices) => projectLoopS indices st1.self.data st1

/-- The schema loop of `join` (DB.cpp 120-124). -/
def mergeSchemaS : List String → Store → Store
  | [], st => st
  | col :: rest, st =>
    if findIndex st.self.columns col = st.self.columns.length then
      mergeSchemaS rest (st.pushColumn col)
    else mergeSchemaS rest st

/-- The bucket loop of `join` (DB.cpp 130-138). -/
def emitBucketS (otherCol : Nat) (row : List String) : List (List String) → Store → Store
  | [], st => st
  | otherRow :: rest, st =>
    emitBucketS otherCol row rest (st.pushRow (mergeCells otherCol 0 otherRow row))

/-- The row loop of `join` (DB.cpp 127-140). -/
def joinLoopS (thisCol otherCol : Nat) (otherMap : RowMap) :
    List (List String) → Store → Store × Except Failure Unit
  | [], st => (st, .ok ())
  | row :: rest, st =>
    match cell row thisCol with
    | .error e => (st, .error e)
    | .ok key =>
      match otherMap.find key with
      | none => joinLoopS thisCol otherCol otherMap rest st
      | some bucket =>
        joinLoopS thisCol otherCol otherMap rest (emitBucketS otherCol row bucket st)

/-- The body of `join` (DB.cpp 108-141). -/
def joinRun (joinCol : String) (st : Store) : Store × Except Failure Unit :=
  let st1 := st.declareResult
  match getColumnIndex st1.self joinCol with
  | .error e => (st1, .error e)
  | .ok thisCol =>
    match getColumnIndex st1.other joinCol with
    | .error e => (st1, .error e)
    | .ok otherCol =>
      match buildMap otherCol st1.other.data [] with
      | .error e => (st1, .error e)
      | .ok otherMap =>
        let st2 := st1.setColumns st1.self.columns
        let st3 := mergeSchemaS st2.other.columns st2
        joinLoopS thisCol otherCol otherMap st3.self.data st3

/-- A run and the operator it spells out agree: both fail with the same failure, or the
run ends normally with the operator's table in `result`. -/
def Agrees (run : Store × Except Failure Unit) (op : Except Failure RelationalDatabase) :
    Prop :=
  match op with
  | .ok t => run.2 = .ok () ∧ run.1.result = t
  | .error e => run.2 = .error e

/-! ## `find` and unchecked indexing -/

theorem findIndex_le (cols : List String) (x : String) : findIndex cols x ≤ cols.length := by
  induction cols with
  | nil => simp [findIndex]
  | cons c rest ih =>
    by_cases h : c = x <;> simp [findIndex, h]
    exact ih

theorem findIndex_eq_length_iff (cols : List String) (x : String) :
    findIndex cols x = cols.length ↔ x ∉ cols := by
  induction cols with
  | nil => simp [findIndex]
  | cons c rest ih =>
    by_cases h : c = x
    · simp [findIndex, h]
    · have h2 : ¬ x = c := fun e => h e.symm
      simp [findIndex, h, h2, ih]

theorem findIndex_lt_of_mem {cols : List String} {x : String} (h : x ∈ cols) :
    findIndex cols x < cols.length := by
  have h1 := findIndex_le cols x
  have h2 := (findIndex_eq_length_iff cols x).not.mpr (not_not.mpr h)
  omega

theorem findIndex_getElem? {cols : List String} {x : String} (h : x ∈ cols) :
    cols[findIndex cols x]? = some x := by
  induction cols with
  | nil => simp at h
  | cons c rest ih =>
    by_cases hc : c = x
    · simp [findIndex, hc]
    · have hx : x ∈ rest := by
        rcases List.mem_cons.mp h with e | e
        · exact absurd e.symm hc
        · exact e
      simp [findIndex, hc, ih hx]

theorem findIndex_first (cols : List String) (x : String) (j : Nat)
    (hj : j < findIndex cols x) : cols[j]? ≠ some x := by
  induction cols generalizing j with
  | nil => simp
  | cons c rest ih =>
    by_cases hc : c = x
    · simp [findIndex, hc] at hj
    · simp only [findIndex, hc, if_false] at hj
      cases j with
      | zero => simpa using hc
      | succ j => simpa using ih j (by omega)

theorem cell_of_lt {row : List String} {i : Nat} (h : i < row.length) :
    cell row i = .ok row[i] := by
  simp [cell, List.getElem?_eq_getElem h]

theorem cell_of_le {row : List String} {i : Nat} (h : row.length ≤ i) :
    cell row i = .error .undefined_behaviour := by
  simp [cell, List.getElem?_eq_none h]

/-! ## `select` -/

theorem selectLoop_eq (colIndex : Nat) (value : String) (rows acc : List (List String))
    (h : ∀ row ∈ rows, colIndex < row.length) :
    selectLoop colIndex value rows acc =
      .ok (acc ++ rows.filter (fun row => decide (row[colIndex]? = some value))) := by
  induction rows generalizing acc with
  | nil => simp [selectLoop]
  | cons row rest ih =>
    have hr : colIndex < row.length := h row (List.mem_cons_self _ _)
    have hrest : ∀ r ∈ rest, colIndex < r.length := fun r hr => h r (List.mem_cons_of_mem _ hr)
    by_cases hv : row[colIndex] = value
    · simp [selectLoop, cell_of_lt hr, hv, ih _ hrest, List.getElem?_eq_getElem hr,
        List.filter_cons]
    · simp [selectLoop, cell_of_lt hr, hv, ih _ hrest, List.getElem?_eq_getElem hr,
        List.filter_cons]

/-! ## `project` -/

theorem projectCols_eq (columns names : List String) (st : List Nat × List String)
    (h : ∀ c ∈ names, c ∈ columns) :
    projectCols columns names st =
      .ok (st.1 ++ names.map (findIndex columns), st.2 ++ names) := by
  induction names generalizing st with
  | nil => simp [projectCols]
  | cons c rest ih =>
    obtain ⟨indices, rcols⟩ := st
    have hc : findIndex columns c ≠ columns.length :=
      (findIndex_eq_length_iff columns c).not.mpr (not_not.mpr (h c (List.mem_cons_self _ _)))
    simp [projectCols, hc, ih _ (fun d hd => h d (List.mem_cons_of_mem _ hd))]

theorem projectCols_error (columns names : List String) (st : List Nat × List String)
    (h : ∃ c ∈ names, c ∉ columns) :
    ∃ c, c ∈ names ∧ c ∉ columns ∧
      projectCols columns names st = .error (.invalid_argument ("Invalid column: " ++ c)) := by
  induction names generalizing st with
  | nil => simp at h
  | cons c rest ih =>
    obtain ⟨indices, rcols⟩ := st
    by_cases hc : c ∈ columns
    · have hne : findIndex columns c ≠ columns.length :=
        (findIndex_eq_length_iff columns c).not.mpr (not_not.mpr hc)
      obtain ⟨d, hd, hdn⟩ := h
      have hd2 : d ∈ rest := by
        rcases List.mem_cons.mp hd with e | e
        · exact absurd (e ▸ hc) hdn
        · exact e
      obtain ⟨x, hx, hxn, hxe⟩ := ih (indices ++ [findIndex columns c], rcols ++ [c]) ⟨d, hd2, hdn⟩
      exact ⟨x, List.mem_cons_of_mem _ hx, hxn, by simp [projectCols, hne, hxe]⟩
    · have he : findIndex columns c = columns.length := (findIndex_eq_length_iff columns c).mpr hc
      exact ⟨c, List.mem_cons_self _ _, hc, by simp [projectCols, he]⟩

theorem projectRow_eq (row : List String) (indices : List Nat) (acc : List String)
    (h : ∀ i ∈ indices, i < row.length) :
    projectRow row indices acc = .ok (acc ++ indices.map (fun i => row.getD i "")) := by
  induction indices generalizing acc with
  | nil => simp [projectRow]
  | cons i rest ih =>
    have hi : i < row.length := h i (List.mem_cons_self _ _)
    simp [projectRow, cell_of_lt hi, ih _ (fun j hj => h j (List.mem_cons_of_mem _ hj)),
      List.getD_eq_getElem?_getD, List.getElem?_eq_getElem hi]

theorem projectLoop_eq (indices : List Nat) (rows acc : List (List String))
    (h : ∀ row ∈ rows, ∀ i ∈ indices, i < row.length) :
    projectLoop indices rows acc =
      .ok (acc ++ rows.map (fun row => indices.map (fun i => row.getD i ""))) := by
  induction rows generalizing acc with
  | nil => simp [projectLoop]
  | cons row rest ih =>
    simp [projectLoop, projectRow_eq row indices [] (h row (List.mem_cons_self _ _)),
      ih _ (fun r hr => h r (List.mem_cons_of_mem _ hr))]

theorem cell_error {row : List String} {i : Nat} {e : Failure} (h : cell row i = .error e) :
    e = .undefined_behaviour := by
  unfold cell at h
  cases hc : row[i]? with
  | none => rw [hc] at h; cases h; rfl
  | some c => rw [hc] at h; cases h

theorem projectRow_error (row : List String) (indices : List Nat) (acc : List String)
    (e : Failure) (h : projectRow row indices acc = .error e) : e = .undefined_behaviour := by
  induction indices generalizing acc with
  | nil => simp [projectRow] at h
  | cons i rest ih =>
    cases hc : cell row i with
    | error e2 =>
      simp only [projectRow, hc] at h
      cases h
      exact cell_error hc
    | ok c =>
      simp only [projectRow, hc] at h
      exact ih _ h

theorem projectLoop_error (indices : List Nat) (rows acc : List (List String))
    (e : Failure) (h : projectLoop indices rows acc = .error e) : e = .undefined_behaviour := by
  induction rows generalizing acc with
  | nil => simp [projectLoop] at h
  | cons row rest ih =>
    cases hr : projectRow row indices [] with
    | error e2 =>
      simp only [projectLoop, hr] at h
      cases h
      exact projectRow_error _ _ _ _ hr
    | ok prow =>
      simp only [projectLoop, hr] at h
      exact ih _ h

/-- Closed form of `project` on a well-formed table when every name is in the schema. -/
theorem project_eq (T : RelationalDatabase) (names : List String) (hwf : WellFormed T)
    (hall : ∀ c ∈ names, c ∈ T.columns) :
    project T names = .ok
      { columns := names,
        data := T.data.map (fun row => names.map (fun c => row.getD (findIndex T.columns c) "")) } := by
  have hidx : ∀ row ∈ T.data, ∀ i ∈ names.map (findIndex T.columns), i < row.length := by
    intro row hrow i hi
    obtain ⟨c, hc, rfl⟩ := List.mem_map.mp hi
    rw [hwf row hrow]
    exact findIndex_lt_of_mem (hall c hc)
  simp [project, RelationalDatabase.empty, projectCols_eq _ _ _ hall,
    projectLoop_eq _ _ _ hidx, List.map_map, Function.comp_def]

/-! ## Selection and projection: the claims -/

/-- C1: on a table whose rows all have as many cells as there are columns, and for a
column name `C` of its schema, `select` returns a table with the input's schema whose
rows are the input's rows filtered, in their original order, to those whose cell at
the first position of `C` in the schema is exactly `V`. -/
theorem select_correct (T : RelationalDatabase) (C V : String)
    (hwf : WellFormed T) (hC : C ∈ T.columns) :
    select T C V = .ok
        { columns := T.columns,
          data := T.data.filter (fun row => decide (row[findIndex T.columns C]? = some V)) }
      ∧ T.columns[findIndex T.columns C]? = some C
      ∧ ∀ j, j < findIndex T.columns C → T.columns[j]? ≠ some C := by
  refine ⟨?_, findIndex_getElem? hC, findIndex_first T.columns C⟩
  have hidx : ∀ row ∈ T.data, findIndex T.columns C < row.length := by
    intro row hrow
    rw [hwf row hrow]
    exact findIndex_lt_of_mem hC
  simp [select, selectLoop_eq _ _ _ _ hidx]

theorem select_correct_witness :
    WellFormed rightTable ∧ "Dept" ∈ rightTable.columns ∧
      select rightTable "Dept" "23" =
        .ok { columns := ["PartNo", "Dept"], data := [["1", "23"]] } :=
  ⟨by decide, by decide,
    (select_correct rightTable "Dept" "23" (by decide) (by decide)).1.trans (by decide)⟩

/-- C2 (the code departs from the claim): `select` never looks at whether `find` located
the column.  On a table without rows it returns a table for a name that is not in the
schema, and on a table with rows it indexes each row one past the schema (undefined
behaviour on a row as long as the schema); neither is a `ColumnNotFound` failure. -/
theorem select_missing_column_not_reported :
    select { columns := ["PartNo", "Dept"], data := [] } "Missing" "x" =
        .ok { columns := ["PartNo", "Dept"], data := [] }
      ∧ select rightTable "Missing" "x" = .error .undefined_behaviour := by
  decide

/-- C3: on a table whose rows all have as many cells as there are columns, and for
requested names that all occur in its schema (repetitions allowed), `project` returns a
table whose schema is the requested list, with one row per input row in the same order,
each as long as the requested list, whose cell `j` is the input row's cell at the first
position of the `j`-th requested name in the input schema. -/
theorem project_correct (T : RelationalDatabase) (names : List String)
    (hwf : WellFormed T) (hall : ∀ c ∈ names, c ∈ T.columns) :
    ∃ P, project T names = .ok P ∧ P.columns = names ∧ P.data.length = T.data.length ∧
      ∀ i j, i < T.data.length → j < names.length →
        ∃ row prow c v, T.data[i]? = some row ∧ P.data[i]? = some prow ∧
          names[j]? = some c ∧ prow.length = names.length ∧
          prow[j]? = some v ∧ row[findIndex T.columns c]? = some v ∧
          T.columns[findIndex T.columns c]? = some c ∧
          ∀ k, k < findIndex T.columns c → T.columns[k]? ≠ some c := by
  refine ⟨_, project_eq T names hwf hall, rfl, by simp, ?_⟩
  intro i j hi hj
  have hc : names[j] ∈ T.columns := hall _ (List.getElem_mem hj)
  have hrow : T.data[i] ∈ T.data := List.getElem_mem hi
  have hlt : findIndex T.columns names[j] < T.data[i].length := by
    rw [hwf _ hrow]; exact findIndex_lt_of_mem hc
  refine ⟨T.data[i], names.map (fun c => T.data[i].getD (findIndex T.columns c) ""), names[j],
    T.data[i][findIndex T.columns names[j]], List.getElem?_eq_getElem hi, ?_,
    List.getElem?_eq_getElem hj, by simp, ?_, List.getElem?_eq_getElem hlt,
    findIndex_getElem? hc, findIndex_first T.columns names[j]⟩
  · simp [List.getElem?_map, List.getElem?_eq_getElem hi]
  · simp [List.getElem?_map, List.getElem?_eq_getElem hj, List.getD_eq_getElem?_getD,
      List.getElem?_eq_getElem hlt]

theorem project_correct_witness :
    ∃ P, project leftTable ["Name", "PartNo", "Name"] = .ok P ∧
      P.columns = ["Name", "PartNo", "Name"] ∧ P.data.length = leftTable.data.length ∧
      ∀ i j, i < leftTable.data.length → j < ["Name", "PartNo", "Name"].length →
        ∃ row prow c v, leftTable.data[i]? = some row ∧ P.data[i]? = some prow ∧
          ["Name", "PartNo", "Name"][j]? = some c ∧
          prow.length = ["Name", "PartNo", "Name"].length ∧
          prow[j]? = some v ∧ row[findIndex leftTable.columns c]? = some v ∧
          leftTable.columns[findIndex leftTable.columns c]? = some c ∧
          ∀ k, k < findIndex leftTable.columns c → leftTable.columns[k]? ≠ some c :=
  project_correct leftTable ["Name", "PartNo", "Name"] (by decide) (by decide)

/-- C4: `project` fails with `ColumnNotFound` (the `invalid_argument` thrown by its
first loop) exactly when some requested name is absent from the schema; the result is
then the failure alone, never a table. -/
theorem project_fails_iff (T : RelationalDatabase) (names : List String) :
    (∃ e, project T names = .error e ∧ e.isColumnNotFound = true) ↔
      ∃ c ∈ names, c ∉ T.columns := by
  constructor
  · rintro ⟨e, he, hk⟩
    by_contra hno
    have hall : ∀ c ∈ names, c ∈ T.columns := by
      intro c hc
      by_contra hcn
      exact hno ⟨c, hc, hcn⟩
    rw [project, projectCols_eq _ _ _ hall] at he
    simp only [RelationalDatabase.empty, List.nil_append] at he
    cases hloop : projectLoop (names.map (findIndex T.columns)) T.data [] with
    | ok rows => rw [hloop] at he; cases he
    | error e2 =>
      rw [hloop] at he
      cases he
      rw [projectLoop_error _ _ _ _ hloop] at hk
      cases hk
  · intro h
    obtain ⟨c, _, _, hc⟩ :=
      projectCols_error T.columns names ([], RelationalDatabase.empty.columns) h
    exact ⟨.invalid_argument ("Invalid column: " ++ c), by simp [project, hc], rfl⟩

/-! ## `join`: the loops in closed form -/

theorem getColumnIndex_of_mem {db : RelationalDatabase} {col : String} (h : col ∈ db.columns) :
    getColumnIndex db col = .ok (findIndex db.columns col) := by
  have hne : findIndex db.columns col ≠ db.columns.length :=
    (findIndex_eq_length_iff db.columns col).not.mpr (not_not.mpr h)
  simp [getColumnIndex, hne]

theorem getColumnIndex_of_not_mem {db : RelationalDatabase} {col : String}
    (h : col ∉ db.columns) :
    getColumnIndex db col = .error (.invalid_argument ("Column not found: " ++ col)) := by
  simp [getColumnIndex, (findIndex_eq_length_iff db.columns col).mpr h]

theorem mergeSchema_eq (columns others rcols : List String) :
    mergeSchema columns others rcols =
      rcols ++ others.filter (fun c => decide (c ∉ columns)) := by
  induction others generalizing rcols with
  | nil => simp [mergeSchema]
  | cons c rest ih =>
    by_cases hc : c ∈ columns
    · have hne : findIndex columns c ≠ columns.length :=
        (findIndex_eq_length_iff columns c).not.mpr (not_not.mpr hc)
      simp [mergeSchema, hne, ih, hc]
    · have he : findIndex columns c = columns.length := (findIndex_eq_length_iff columns c).mpr hc
      simp [mergeSchema, he, ih, hc]

theorem mergeCells_eq (otherCol i : Nat) (cells merged : List String) :
    mergeCells otherCol i cells merged =
      merged ++ (if i ≤ otherCol then cells.eraseIdx (otherCol - i) else cells) := by
  induction cells generalizing i merged with
  | nil => simp [mergeCells]
  | cons c rest ih =>
    by_cases h : i = otherCol
    · subst h
      simp [mergeCells, ih]
    · by_cases hle : i ≤ otherCol
      · have h1 : i + 1 ≤ otherCol := by omega
        have h2 : otherCol - i = (otherCol - (i + 1)) + 1 := by omega
        simp only [mergeCells, ne_eq, h, not_false_eq_true, if_true, ih, h1, hle]
        rw [h2, List.eraseIdx_cons_succ]
        simp
      · have h1 : ¬ i + 1 ≤ otherCol := by omega
        simp [mergeCells, h, ih, h1, hle]

/-- The row merge of `join`: the left row followed by the right row without its cell
at position `otherCol`. -/
theorem mergeCells_zero (otherCol : Nat) (otherRow row : List String) :
    mergeCells otherCol 0 otherRow row = row ++ otherRow.eraseIdx otherCol := by
  simp [mergeCells_eq]

theorem emitBucket_eq (otherCol : Nat) (row : List String) (bucket acc : List (List String)) :
    emitBucket otherCol row bucket acc =
      acc ++ bucket.map (fun otherRow => mergeCells otherCol 0 otherRow row) := by
  induction bucket generalizing acc with
  | nil => simp [emitBucket]
  | cons r rest ih => simp [emitBucket, ih]

theorem bucket_pushBack (m : RowMap) (key : String) (row : List String) (key2 : String) :
    (m.pushBack key row).bucket key2 =
      if key = key2 then m.bucket key2 ++ [row] else m.bucket key2 := by
  induction m with
  | nil =>
    by_cases h : key = key2 <;> simp [RowMap.pushBack, RowMap.bucket, RowMap.find, h]
  | cons entry rest ih =>
    obtain ⟨k, b⟩ := entry
    simp only [RowMap.bucket] at ih ⊢
    by_cases hk : k = key
    · subst hk
      by_cases h : k = key2 <;> simp [RowMap.pushBack, RowMap.find, h]
    · by_cases hk2 : k = key2
      · subst hk2
        have hne : ¬ key = k := fun e => hk e.symm
        simp [RowMap.pushBack, RowMap.find, hk, hne]
      · simp only [RowMap.pushBack, hk, if_false, RowMap.find, hk2]
        exact ih

theorem buildMap_eq (otherCol : Nat) (rows : List (List String)) (m : RowMap)
    (h : ∀ row ∈ rows, otherCol < row.length) :
    ∃ m2, buildMap otherCol rows m = .ok m2 ∧
      ∀ key, m2.bucket key =
        m.bucket key ++ rows.filter (fun row => decide (row[otherCol]? = some key)) := by
  induction rows generalizing m with
  | nil => exact ⟨m, by simp [buildMap], by simp⟩
  | cons row rest ih =>
    have hr : otherCol < row.length := h row (List.mem_cons_self _ _)
    obtain ⟨m2, hm2, hb⟩ :=
      ih (m.pushBack row[otherCol] row) (fun r hr => h r (List.mem_cons_of_mem _ hr))
    refine ⟨m2, by simp [buildMap, cell_of_lt hr, hm2], ?_⟩
    intro key
    rw [hb key, bucket_pushBack]
    by_cases hk : row[otherCol] = key
    · simp [hk, List.filter_cons, List.getElem?_eq_getElem hr]
    · simp [hk, List.filter_cons, List.getElem?_eq_getElem hr]

theorem joinLoop_eq (thisCol otherCol : Nat) (otherMap : RowMap)
    (rows acc : List (List String)) (h : ∀ row ∈ rows, thisCol < row.length) :
    joinLoop thisCol otherCol otherMap rows acc = .ok (acc ++ rows.flatMap (fun row =>
      (otherMap.bucket (row.getD thisCol "")).map
        (fun otherRow => mergeCells otherCol 0 otherRow row))) := by
  induction rows generalizing acc with
  | nil => simp [joinLoop]
  | cons row rest ih =>
    have hr : thisCol < row.length := h row (List.mem_cons_self _ _)
    have hrest : ∀ r ∈ rest, thisCol < r.length := fun r hr => h r (List.mem_cons_of_mem _ hr)
    have hget : row.getD thisCol "" = row[thisCol] := by
      simp [List.getD_eq_getElem?_getD, List.getElem?_eq_getElem hr]
    simp only [joinLoop, cell_of_lt hr, List.flatMap_cons, hget, RowMap.bucket]
    cases hf : RowMap.find otherMap row[thisCol] with
    | none => simp [ih _ hrest, RowMap.bucket]
    | some bucket => simp [ih _ hrest, emitBucket_eq, RowMap.bucket]

theorem buildMap_error (otherCol : Nat) (rows : List (List String)) (m : RowMap)
    (e : Failure) (h : buildMap otherCol rows m = .error e) : e = .undefined_behaviour := by
  induction rows generalizing m with
  | nil => simp [buildMap] at h
  | cons row rest ih =>
    cases hc : cell row otherCol with
    | error e2 =>
      simp only [buildMap, hc] at h
      cases h
      exact cell_error hc
    | ok c =>
      simp only [buildMap, hc] at h
      exact ih _ h

theorem joinLoop_error (thisCol otherCol : Nat) (otherMap : RowMap)
    (rows acc : List (List String)) (e : Failure)
    (h : joinLoop thisCol otherCol otherMap rows acc = .error e) :
    e = .undefined_behaviour := by
  induction rows generalizing acc with
  | nil => simp [joinLoop] at h
  | cons row rest ih =>
    cases hc : cell row thisCol with
    | error e2 =>
      simp only [joinLoop, hc] at h
      cases h
      exact cell_error hc
    | ok c =>
      simp only [joinLoop, hc] at h
      cases hf : RowMap.find otherMap c with
      | none => rw [hf] at h; exact ih _ h
      | some bucket => rw [hf] at h; exact ih _ h

/-- Closed form of `join` on well-formed tables that both have the join column. -/
theorem join_eq (L R : RelationalDatabase) (k : String) (hwfL : WellFormed L)
    (hwfR : WellFormed R) (hL : k ∈ L.columns) (hR : k ∈ R.columns) :
    join L R k = .ok
      { columns := L.columns ++ R.columns.filter (fun c => decide (c ∉ L.columns)),
        data := nestedLoopJoin L R k } := by
  have hLi : ∀ row ∈ L.data, findIndex L.columns k < row.length := by
    intro row hrow; rw [hwfL row hrow]; exact findIndex_lt_of_mem hL
  have hRi : ∀ row ∈ R.data, findIndex R.columns k < row.length := by
    intro row hrow; rw [hwfR row hrow]; exact findIndex_lt_of_mem hR
  obtain ⟨m2, hm2, hb⟩ := buildMap_eq (findIndex R.columns k) R.data [] hRi
  have hnil : RowMap.bucket [] = fun _ => [] := by
    funext key; simp [RowMap.bucket, RowMap.find]
  simp only [join, getColumnIndex_of_mem hL, getColumnIndex_of_mem hR, hm2,
    RelationalDatabase.empty, joinLoop_eq _ _ _ _ _ hLi, mergeSchema_eq, List.nil_append,
    nestedLoopJoin]
  congr 2
  apply List.flatMap_congr
  intro row hrow
  have hlt := hLi row hrow
  rw [hb, hnil]
  simp only [List.nil_append]
  congr 1
  apply List.filter_congr
  intro otherRow _
  simp [List.getD_eq_getElem?_getD, List.getElem?_eq_getElem hlt]

theorem join_columns_of_ok (L R : RelationalDatabase) (k : String) (J : RelationalDatabase)
    (h : join L R k = .ok J) :
    J.columns = L.columns ++ R.columns.filter (fun c => decide (c ∉ L.columns)) := by
  unfold join at h
  cases h1 : getColumnIndex L k with
  | error e => rw [h1] at h; cases h
  | ok thisCol =>
    cases h2 : getColumnIndex R k with
    | error e => rw [h1, h2] at h; cases h
    | ok otherCol =>
      cases h3 : buildMap otherCol R.data [] with
      | error e => rw [h1, h2] at h; simp only [h3] at h; cases h
      | ok otherMap =>
        cases h4 : joinLoop thisCol otherCol otherMap L.data RelationalDatabase.empty.data with
        | error e => rw [h1, h2] at h; simp only [h3, h4] at h; cases h
        | ok rows =>
          rw [h1, h2] at h
          simp only [h3, h4] at h
          cases h
          exact mergeSchema_eq _ _ _

/-! ## `join`: the claims -/

/-- C5: for tables that both contain the join column, the schema of every table `join`
returns is the left schema, in order, followed by the right columns whose name does not
occur in the left schema, in the right table's order; and `join` does return a table
whenever the rows of both inputs are as long as their schemas. -/
theorem join_schema (L R : RelationalDatabase) (k : String)
    (hL : k ∈ L.columns) (hR : k ∈ R.columns) :
    (∀ J, join L R k = .ok J →
        J.columns = L.columns ++ R.columns.filter (fun c => decide (c ∉ L.columns)))
      ∧ (WellFormed L → WellFormed R → ∃ J, join L R k = .ok J) :=
  ⟨join_columns_of_ok L R k, fun hwfL hwfR => ⟨_, join_eq L R k hwfL hwfR hL hR⟩⟩

theorem join_schema_witness :
    "PartNo" ∈ leftTable.columns ∧ "PartNo" ∈ rightTable.columns ∧
      ∃ J, join leftTable rightTable "PartNo" = .ok J ∧
        J.columns = ["PartNo", "Name", "Dept"] :=
  ⟨by decide, by decide,
    match (join_schema leftTable rightTable "PartNo" (by decide) (by decide)).2
        (by decide) (by decide) with
    | ⟨J, hJ⟩ =>
      ⟨J, hJ, ((join_schema leftTable rightTable "PartNo" (by decide) (by decide)).1 J hJ).trans
        (by decide)⟩⟩

/-- C6 (the code departs from the claim): the row merge of `join` skips only the cell at
the position of the join key in the right row.  With a right column `Name` that
duplicates a left column, the schema loop leaves `Name` out but the merged row keeps
its cell `Acme`, so the row is not the left cells followed by the cells of the retained
right columns (`1, Bolt, 23`). -/
theorem join_keeps_cell_of_dropped_column :
    join buyersTable suppliersTable "PartNo" =
        .ok { columns := ["PartNo", "Name", "Dept"], data := [["1", "Bolt", "Acme", "23"]] }
      ∧ mergeCells (findIndex suppliersTable.columns "PartNo") 0 ["1", "Acme", "23"]
          ["1", "Bolt"] ≠ ["1", "Bolt"] ++ ["23"] := by
  decide

/-- C7 (the code departs from the claim): both inputs satisfy I1 and have pairwise
distinct column names, both contain the join column, and the table `join` returns has a
row of four cells under a schema of three columns. -/
theorem join_breaks_row_length_invariant :
    WellFormed buyersTable ∧ WellFormed suppliersTable ∧
      buyersTable.columns.Nodup ∧ suppliersTable.columns.Nodup ∧
      ∃ J, join buyersTable suppliersTable "PartNo" = .ok J ∧
        J.columns.length = 3 ∧ J.data.map List.length = [4] ∧ ¬ WellFormed J :=
  ⟨by decide, by decide, by decide, by decide,
    { columns := ["PartNo", "Name", "Dept"], data := [["1", "Bolt", "Acme", "23"]] },
    by decide, by decide, by decide, by decide⟩

/-- C8: for tables with rows as long as their schemas that both contain the join column,
`join` returns a table whose number of rows is the sum, over the left rows in order, of
the number of right rows whose join-key cell equals that left row's join-key cell (a
left row without a match adds 0). -/
theorem join_cardinality (L R : RelationalDatabase) (k : String)
    (hwfL : WellFormed L) (hwfR : WellFormed R) (hL : k ∈ L.columns) (hR : k ∈ R.columns) :
    ∃ J, join L R k = .ok J ∧
      J.data.length = (L.data.map (fun row => R.data.countP (fun otherRow =>
        decide (otherRow[findIndex R.columns k]? = row[findIndex L.columns k]?)))).sum := by
  refine ⟨_, join_eq L R k hwfL hwfR hL hR, ?_⟩
  simp only [nestedLoopJoin, List.length_flatMap, Function.comp_def, List.length_map,
    List.countP_eq_length_filter]

theorem join_cardinality_witness :
    ∃ J, join leftTable rightTable "PartNo" = .ok J ∧ J.data.length = 2 :=
  match join_cardinality leftTable rightTable "PartNo" (by decide) (by decide) (by decide)
      (by decide) with
  | ⟨J, hJ, hlen⟩ => ⟨J, hJ, hlen.trans (by decide)⟩

/-- C9: for tables with rows as long as their schemas that both contain the join column,
the rows `join` returns through its hash map are, in the same order, the rows of the
naive nested loop over the left rows and, for each, the right rows with an equal
join-key cell, merged by the same row merge. -/
theorem join_refines_nested_loop (L R : RelationalDatabase) (k : String)
    (hwfL : WellFormed L) (hwfR : WellFormed R) (hL : k ∈ L.columns) (hR : k ∈ R.columns) :
    ∃ J, join L R k = .ok J ∧ J.data = nestedLoopJoin L R k :=
  ⟨_, join_eq L R k hwfL hwfR hL hR, rfl⟩

theorem join_refines_nested_loop_witness :
    ∃ J, join leftTable rightTable "PartNo" = .ok J ∧
      J.data = [["1", "Bolt", "23"], ["1", "Bolt", "07"]] :=
  match join_refines_nested_loop leftTable rightTable "PartNo" (by decide) (by decide)
      (by decide) (by decide) with
  | ⟨J, hJ, hdata⟩ => ⟨J, hJ, hdata.trans (by decide)⟩

/-- C10: `join` fails with `ColumnNotFound` (the `invalid_argument` thrown by
`getColumnIndex`) exactly when the join column is missing from the left schema or from
the right schema; both lookups precede every other statement of `join`, so the result
is then the failure alone. -/
theorem join_fails_iff (L R : RelationalDatabase) (k : String) :
    (∃ e, join L R k = .error e ∧ e.isColumnNotFound = true) ↔
      (k ∉ L.columns ∨ k ∉ R.columns) := by
  constructor
  · rintro ⟨e, he, hk⟩
    by_contra hno
    have hL : k ∈ L.columns := by
      by_contra h; exact hno (Or.inl h)
    have hR : k ∈ R.columns := by
      by_contra h; exact hno (Or.inr h)
    unfold join at he
    rw [getColumnIndex_of_mem hL, getColumnIndex_of_mem hR] at he
    simp only at he
    cases h3 : buildMap (findIndex R.columns k) R.data [] with
    | error e3 =>
      simp only [h3] at he
      cases he
      rw [buildMap_error _ _ _ _ h3] at hk
      cases hk
    | ok otherMap =>
      cases h4 : joinLoop (findIndex L.columns k) (findIndex R.columns k) otherMap L.data
          RelationalDatabase.empty.data with
      | error e4 =>
        simp only [h3, h4] at he
        cases he
        rw [joinLoop_error _ _ _ _ _ _ h4] at hk
        cases hk
      | ok rows =>
        simp only [h3, h4] at he
        cases he
  · intro h
    refine ⟨.invalid_argument ("Column not found: " ++ k), ?_, rfl⟩
    by_cases hL : k ∈ L.columns
    · have hR : k ∉ R.columns := by
        rcases h with h | h
        · exact absurd hL h
        · exact h
      simp [join, getColumnIndex_of_mem hL, getColumnIndex_of_not_mem hR]
    · simp [join, getColumnIndex_of_not_mem hL]

/-! ## Schema and row-length properties of the operators -/

theorem findIndex_getElem_of_nodup {cols : List String} (hnd : cols.Nodup) {j : Nat}
    (hj : j < cols.length) : findIndex cols cols[j] = j := by
  have hmem : cols[j] ∈ cols := List.getElem_mem hj
  have hlt := findIndex_lt_of_mem hmem
  have hget := findIndex_getElem? hmem
  rw [List.getElem?_eq_getElem hlt] at hget
  exact (hnd.getElem_inj_iff).mp (Option.some.inj hget)

/-- Closed form of `select` on a well-formed table for a column of the schema. -/
theorem select_eq (T : RelationalDatabase) (C V : String)
    (hwf : WellFormed T) (hC : C ∈ T.columns) :
    select T C V = .ok
      { columns := T.columns,
        data := T.data.filter (fun row => decide (row[findIndex T.columns C]? = some V)) } := by
  have hidx : ∀ row ∈ T.data, findIndex T.columns C < row.length := by
    intro row hrow
    rw [hwf row hrow]
    exact findIndex_lt_of_mem hC
  simp [select, selectLoop_eq _ _ _ _ hidx]

theorem select_wellFormed (T : RelationalDatabase) (C V : String)
    (hwf : WellFormed T) (hC : C ∈ T.columns) :
    ∃ S, select T C V = .ok S ∧ WellFormed S := by
  refine ⟨_, select_eq T C V hwf hC, ?_⟩
  intro row hrow
  exact hwf row (List.mem_filter.mp hrow).1

theorem project_wellFormed (T : RelationalDatabase) (names : List String)
    (hwf : WellFormed T) (hall : ∀ c ∈ names, c ∈ T.columns) :
    ∃ P, project T names = .ok P ∧ WellFormed P := by
  refine ⟨_, project_eq T names hwf hall, ?_⟩
  intro row hrow
  obtain ⟨r, _, rfl⟩ := List.mem_map.mp hrow
  simp

/-- C11: for tables whose column names are pairwise distinct and that both contain the
join column, the schema of every table `join` returns has no repeated name, contains
every left column and contains every right column that is not named on the left; and
`join` does return a table whenever the rows of both inputs are as long as their
schemas. -/
theorem join_schema_nodup (L R : RelationalDatabase) (k : String)
    (hnL : L.columns.Nodup) (hnR : R.columns.Nodup)
    (hL : k ∈ L.columns) (hR : k ∈ R.columns) :
    (∀ J, join L R k = .ok J →
        J.columns.Nodup ∧ (∀ c ∈ L.columns, c ∈ J.columns) ∧
          (∀ c ∈ R.columns, c ∉ L.columns → c ∈ J.columns))
      ∧ (WellFormed L → WellFormed R → ∃ J, join L R k = .ok J) := by
  refine ⟨?_, fun hwfL hwfR => ⟨_, join_eq L R k hwfL hwfR hL hR⟩⟩
  intro J hJ
  rw [join_columns_of_ok L R k J hJ]
  refine ⟨?_, ?_, ?_⟩
  · refine List.Nodup.append hnL (hnR.filter _) ?_
    intro c hc hc2
    have := (List.mem_filter.mp hc2).2
    simp only [decide_eq_true_eq] at this
    exact this hc
  · intro c hc
    exact List.mem_append_left _ hc
  · intro c hc hcn
    exact List.mem_append_right _ (List.mem_filter.mpr ⟨hc, by simpa using hcn⟩)

theorem join_schema_nodup_witness :
    leftTable.columns.Nodup ∧ rightTable.columns.Nodup ∧
      ∃ J, join leftTable rightTable "PartNo" = .ok J ∧ J.columns.Nodup ∧
        "Name" ∈ J.columns ∧ "Dept" ∈ J.columns :=
  ⟨by decide, by decide,
    match (join_schema_nodup leftTable rightTable "PartNo" (by decide) (by decide)
        (by decide) (by decide)).2 (by decide) (by decide) with
    | ⟨J, hJ⟩ =>
      match (join_schema_nodup leftTable rightTable "PartNo" (by decide) (by decide)
          (by decide) (by decide)).1 J hJ with
      | ⟨h1, h2, h3⟩ => ⟨J, hJ, h1, h2 "Name" (by decide), h3 "Dept" (by decide) (by decide)⟩⟩

/-- C12: on a table whose rows all have as many cells as there are columns, every row of
the table `select` returns (for a column of the schema) and every row of the table
`project` returns (for names that all occur in the schema) has as many cells as the
returned table has columns. -/
theorem select_project_rows_match_schema (T : RelationalDatabase) (C V : String)
    (names : List String) (hwf : WellFormed T) (hC : C ∈ T.columns)
    (hall : ∀ c ∈ names, c ∈ T.columns) :
    (∃ S, select T C V = .ok S ∧ ∀ row ∈ S.data, row.length = S.columns.length)
      ∧ (∃ P, project T names = .ok P ∧ ∀ row ∈ P.data, row.length = P.columns.length) :=
  ⟨select_wellFormed T C V hwf hC, project_wellFormed T names hwf hall⟩

theorem select_project_rows_match_schema_witness :
    (∃ S, select rightTable "Dept" "23" = .ok S ∧
        ∀ row ∈ S.data, row.length = S.columns.length)
      ∧ (∃ P, project rightTable ["Dept", "Dept", "PartNo"] = .ok P ∧
        ∀ row ∈ P.data, row.length = P.columns.length) :=
  select_project_rows_match_schema rightTable "Dept" "23" ["Dept", "Dept", "PartNo"]
    (by decide) (by decide) (by decide)

/-- C20: projecting a table whose column names are pairwise distinct and whose rows all
have as many cells as there are columns onto its own schema succeeds and returns a table
with the same columns and the same rows. -/
theorem project_identity (T : RelationalDatabase) (hnd : T.columns.Nodup)
    (hwf : WellFormed T) : project T T.columns = .ok T := by
  rw [project_eq T T.columns hwf (fun c hc => hc)]
  have hrows : T.data.map (fun row =>
      T.columns.map (fun c => row.getD (findIndex T.columns c) "")) = T.data := by
    conv_rhs => rw [← List.map_id T.data]
    apply List.map_congr_left
    intro row hrow
    have hlen := hwf row hrow
    apply List.ext_getElem (by simp [hlen])
    intro n h1 h2
    have hn : n < T.columns.length := by simpa using h1
    have hr : n < row.length := by rw [hlen]; exact hn
    simp [findIndex_getElem_of_nodup hnd hn, List.getD_eq_getElem?_getD,
      List.getElem?_eq_getElem hr]
  rw [hrows]

theorem project_identity_witness :
    leftTable.columns.Nodup ∧ WellFormed leftTable ∧
      project leftTable ["PartNo", "Name"] = .ok leftTable :=
  ⟨by decide, by decide, project_identity leftTable (by decide) (by decide)⟩

/-! ## Index safety -/

theorem mergeIndexed_eq (otherCol : Nat) (otherRow : List String) (n i : Nat)
    (merged : List String) (h : i + n = otherRow.length) :
    mergeIndexed otherCol otherRow n i merged =
      .ok (mergeCells otherCol i (otherRow.drop i) merged) := by
  induction n generalizing i merged with
  | zero =>
    have hd : otherRow.drop i = [] := List.drop_eq_nil_of_le (by omega)
    simp [mergeIndexed, hd, mergeCells]
  | succ n ih =>
    have hi : i < otherRow.length := by omega
    have hd : otherRow.drop i = otherRow[i] :: otherRow.drop (i + 1) :=
      List.drop_eq_getElem_cons hi
    rw [hd]
    by_cases hc : i = otherCol
    · subst hc
      simp only [mergeIndexed, mergeCells, ne_eq, not_true_eq_false, if_false]
      exact ih (i + 1) merged (by omega)
    · simp only [mergeIndexed, mergeCells, hc, ne_eq, not_false_eq_true, if_true,
        cell_of_lt hi]
      exact ih (i + 1) _ (by omega)

/-- C18: on tables whose rows all have as many cells as there are columns, and for names
present in the schemas concerned, every unchecked row access is within bounds:
`row[colIndex]` in `select`, `row[idx]` in `project`, `row[otherCol]` and `row[thisCol]`
in `join` each read a cell, `otherRow[i]` reads a cell at every index the merge loop
visits, and none of the three operators ends in the out-of-range outcome. -/
theorem index_safety (T L R : RelationalDatabase) (C V k : String) (names : List String)
    (hwfT : WellFormed T) (hC : C ∈ T.columns) (hall : ∀ c ∈ names, c ∈ T.columns)
    (hwfL : WellFormed L) (hwfR : WellFormed R) (hkL : k ∈ L.columns) (hkR : k ∈ R.columns) :
    (∀ row ∈ T.data, ∃ c, cell row (findIndex T.columns C) = .ok c)
      ∧ (∀ row ∈ T.data, ∀ name ∈ names, ∃ c, cell row (findIndex T.columns name) = .ok c)
      ∧ (∀ row ∈ R.data, ∃ c, cell row (findIndex R.columns k) = .ok c)
      ∧ (∀ row ∈ L.data, ∃ c, cell row (findIndex L.columns k) = .ok c)
      ∧ (∀ row otherRow, mergeIndexed (findIndex R.columns k) otherRow otherRow.length 0 row =
          .ok (mergeCells (findIndex R.columns k) 0 otherRow row))
      ∧ select T C V ≠ .error .undefined_behaviour
      ∧ project T names ≠ .error .undefined_behaviour
      ∧ join L R k ≠ .error .undefined_behaviour := by
  have hcell : ∀ (D : RelationalDatabase) (name : String), WellFormed D → name ∈ D.columns →
      ∀ row ∈ D.data, ∃ c, cell row (findIndex D.columns name) = .ok c := by
    intro D name hwf hname row hrow
    have hlt : findIndex D.columns name < row.length := by
      rw [hwf row hrow]; exact findIndex_lt_of_mem hname
    exact ⟨_, cell_of_lt hlt⟩
  refine ⟨hcell T C hwfT hC, fun row hrow name hname => hcell T name hwfT (hall name hname) row hrow,
    hcell R k hwfR hkR, hcell L k hwfL hkL, ?_, ?_, ?_, ?_⟩
  · intro row otherRow
    simpa using mergeIndexed_eq (findIndex R.columns k) otherRow otherRow.length 0 row (by simp)
  · rw [select_eq T C V hwfT hC]
    intro h; cases h
  · rw [project_eq T names hwfT hall]
    intro h; cases h
  · rw [join_eq L R k hwfL hwfR hkL hkR]
    intro h; cases h

theorem index_safety_witness :
    select rightTable "Dept" "23" ≠ .error .undefined_behaviour
      ∧ project rightTable ["Dept", "PartNo"] ≠ .error .undefined_behaviour
      ∧ join leftTable rightTable "PartNo" ≠ .error .undefined_behaviour :=
  (index_safety rightTable leftTable rightTable "Dept" "23" "PartNo" ["Dept", "PartNo"]
    (by decide) (by decide) (by decide) (by decide) (by decide) (by decide)
    (by decide)).2.2.2.2.2

/-! ## `join` when the join key is the only shared name -/

theorem filter_eq_eraseIdx (p : String → Bool) (cols : List String) (i : Nat)
    (hi : i < cols.length)
    (h : ∀ j c, cols[j]? = some c → (p c = false ↔ j = i)) :
    cols.filter p = cols.eraseIdx i := by
  induction cols generalizing i with
  | nil => simp at hi
  | cons c rest ih =>
    cases i with
    | zero =>
      have hc : p c = false := (h 0 c (by simp)).mpr rfl
      have hrest : ∀ x ∈ rest, p x = true := by
        intro x hx
        obtain ⟨n, hn, rfl⟩ := List.getElem_of_mem hx
        have := h (n + 1) rest[n] (by simp [List.getElem?_eq_getElem hn])
        cases hp : p rest[n] with
        | true => rfl
        | false => exact absurd (this.mp hp) (by omega)
      simp [List.filter_cons, hc, List.filter_eq_self.mpr hrest]
    | succ i =>
      have hc : p c = true := by
        cases hp : p c with
        | true => rfl
        | false => exact absurd ((h 0 c (by simp)).mp hp) (by omega)
      have hi2 : i < rest.length := by simpa using hi
      have h2 : ∀ j x, rest[j]? = some x → (p x = false ↔ j = i) := by
        intro j x hj
        have := h (j + 1) x (by simpa using hj)
        constructor
        · intro hp; have := this.mp hp; omega
        · intro e; exact this.mpr (by omega)
      simp [List.filter_cons, hc, ih i hi2 h2]

theorem mem_nestedLoopJoin {L R : RelationalDatabase} {k : String} {merged : List String}
    (h : merged ∈ nestedLoopJoin L R k) :
    ∃ Lr ∈ L.data, ∃ Rr ∈ R.data,
      Rr[findIndex R.columns k]? = Lr[findIndex L.columns k]? ∧
      merged = Lr ++ Rr.eraseIdx (findIndex R.columns k) := by
  simp only [nestedLoopJoin, List.mem_flatMap, List.mem_map, List.mem_filter,
    decide_eq_true_eq] at h
  obtain ⟨Lr, hLr, Rr, ⟨hRr, hkey⟩, rfl⟩ := h
  exact ⟨Lr, hLr, Rr, hRr, hkey, mergeCells_zero _ _ _⟩

/-- C19: for tables with rows as long as their schemas that both contain the join
column, if the position of the join column is the only position of the right schema
whose name occurs in the left schema, then `join` returns a table in which every row has
as many cells as there are columns; each of its rows comes from a left row and a right
row with equal join-key cells, starts with the left row's cells, and under every retained
right column (position `j` of the right schema, `j` other than the join column's) holds
the right row's cell `j`. -/
theorem join_wellFormed_of_single_shared_name (L R : RelationalDatabase) (k : String)
    (hwfL : WellFormed L) (hwfR : WellFormed R) (hL : k ∈ L.columns) (hR : k ∈ R.columns)
    (honly : ∀ j c, R.columns[j]? = some c → c ∈ L.columns → j = findIndex R.columns k) :
    ∃ J, join L R k = .ok J ∧ (∀ row ∈ J.data, row.length = J.columns.length) ∧
      ∀ merged ∈ J.data, ∃ Lr ∈ L.data, ∃ Rr ∈ R.data,
        Rr[findIndex R.columns k]? = Lr[findIndex L.columns k]? ∧
        (∀ i, i < L.columns.length → merged[i]? = Lr[i]? ∧ J.columns[i]? = L.columns[i]?) ∧
        ∀ j c, R.columns[j]? = some c → j ≠ findIndex R.columns k →
          J.columns[L.columns.length + (if j < findIndex R.columns k then j else j - 1)]?
              = some c ∧
            merged[L.columns.length + (if j < findIndex R.columns k then j else j - 1)]?
              = Rr[j]? := by
  have hoc : findIndex R.columns k < R.columns.length := findIndex_lt_of_mem hR
  have hfilter : R.columns.filter (fun c => decide (c ∉ L.columns)) =
      R.columns.eraseIdx (findIndex R.columns k) := by
    apply filter_eq_eraseIdx _ _ _ hoc
    intro j c hj
    constructor
    · intro hp
      exact honly j c hj (by simpa using hp)
    · intro e
      subst e
      rw [findIndex_getElem? hR] at hj
      cases hj
      simpa using hL
  refine ⟨_, join_eq L R k hwfL hwfR hL hR, ?_, ?_⟩
  · intro row hrow
    obtain ⟨Lr, hLr, Rr, hRr, _, rfl⟩ := mem_nestedLoopJoin hrow
    have h1 := hwfL Lr hLr
    have h2 := hwfR Rr hRr
    simp only [hfilter, List.length_append, List.length_eraseIdx, h1, h2, hoc, if_true]
  · intro merged hm
    obtain ⟨Lr, hLr, Rr, hRr, hkey, rfl⟩ := mem_nestedLoopJoin hm
    have h1 := hwfL Lr hLr
    have h2 := hwfR Rr hRr
    refine ⟨Lr, hLr, Rr, hRr, hkey, ?_, ?_⟩
    · intro i hi
      constructor
      · rw [List.getElem?_append_left (by omega)]
      · simp only []
        rw [List.getElem?_append_left hi]
    · intro j c hj hne
      simp only [hfilter]
      have hsplit : ∀ (A B : List String) (n q : Nat), A.length = n →
          (A ++ B)[n + q]? = B[q]? := by
        intro A B n q hA
        subst hA
        rw [List.getElem?_append_right (by omega)]
        congr 1
        omega
      rw [hsplit _ _ _ _ rfl, hsplit _ _ _ _ h1, List.getElem?_eraseIdx,
        List.getElem?_eraseIdx]
      by_cases hlt : j < findIndex R.columns k
      · simp [hlt, hj]
      · have hq : ¬ (j - 1 < findIndex R.columns k) := by omega
        have hj1 : j - 1 + 1 = j := by omega
        simp [hlt, hq, hj1, hj]

theorem join_wellFormed_of_single_shared_name_witness :
    ∃ J, join leftTable rightTable "PartNo" = .ok J ∧
      (∀ row ∈ J.data, row.length = J.columns.length) :=
  match join_wellFormed_of_single_shared_name leftTable rightTable "PartNo" (by decide)
      (by decide) (by decide) (by decide) (by
        intro j c hj hc
        have hj2 : j < 2 := by
          have := (List.getElem?_eq_some_iff.mp hj).1
          simpa [rightTable] using this
        interval_cases j
        · decide
        · simp [rightTable] at hj
          subst hj
          exact absurd hc (by decide)) with
  | ⟨J, hJ, hlen, _⟩ => ⟨J, hJ, hlen⟩

/-! ## The loader -/

/-- The commas the loop of `parseCSVLine` still splits at, seen from inside the loop:
`inQuotes` stands for one more double quote before the characters still to visit. -/
theorem parseLoop_length (line : String) (i : Nat) (cs : List Char) (tokens : List String)
    (start : Nat) (inQuotes : Bool) :
    (parseLoop line i cs tokens start inQuotes).1.length =
      tokens.length + (List.range cs.length).countP (fun j =>
        decide (cs[j]? = some ',') &&
          decide (((if inQuotes then 1 else 0) + (cs.take j).count '"') % 2 = 0)) := by
  induction cs generalizing i tokens start inQuotes with
  | nil => simp [parseLoop]
  | cons ch rest ih =>
    rw [List.length_cons, List.range_succ_eq_map, List.countP_cons, List.countP_map]
    by_cases hq : ch = '"'
    · subst hq
      simp only [parseLoop, if_true, ih]
      have hfun : ((fun j => decide (('"' :: rest)[j]? = some ',') &&
          decide (((if inQuotes then 1 else 0) + (('"' :: rest).take j).count '"') % 2 = 0))
            ∘ Nat.succ) =
          (fun j => decide (rest[j]? = some ',') &&
            decide (((if (!inQuotes) then 1 else 0) + (rest.take j).count '"') % 2 = 0)) := by
        funext j
        have hcount : (('"' :: rest).take (j + 1)).count '"' = (rest.take j).count '"' + 1 := by
          simp [List.count_cons]
        simp only [Function.comp, Nat.succ_eq_add_one, hcount, List.getElem?_cons_succ]
        congr 1
        apply decide_eq_decide.mpr
        cases inQuotes
        · simp only [Bool.false_eq_true, if_false, Bool.not_false, if_true]
          omega
        · simp only [if_true, Bool.not_true, Bool.false_eq_true, if_false]
          omega
      rw [hfun]
      simp
    · have hcount : ∀ j, ((ch :: rest).take (j + 1)).count '"' = (rest.take j).count '"' := by
        intro j
        simp [List.count_cons, hq]
      have hfun : ((fun j => decide ((ch :: rest)[j]? = some ',') &&
          decide (((if inQuotes then 1 else 0) + ((ch :: rest).take j).count '"') % 2 = 0))
            ∘ Nat.succ) =
          (fun j => decide (rest[j]? = some ',') &&
            decide (((if inQuotes then 1 else 0) + (rest.take j).count '"') % 2 = 0)) := by
        funext j
        simp only [Function.comp, Nat.succ_eq_add_one, hcount, List.getElem?_cons_succ]
      rw [hfun]
      by_cases hc : ch = ','
      · subst hc
        cases inQuotes
        · simp [parseLoop, ih]
          omega
        · simp [parseLoop, ih]
      · cases inQuotes <;> simp [parseLoop, ih, hq, hc]

theorem commasOutsideQuotes_quoted (s : List Char) (hs : '"' ∉ s) :
    commasOutsideQuotes (String.mk ('"' :: s ++ ['"'])) = 0 := by
  unfold commasOutsideQuotes
  rw [List.countP_eq_zero]
  intro j hj
  simp only [List.mem_range, List.length_cons, List.length_append, List.length_singleton,
    List.length_nil] at hj
  cases j with
  | zero => simp
  | succ n =>
    by_cases hn : n < s.length
    · have htake : ((s ++ ['"']).take n).count '"' = 0 := by
        rw [List.take_append_of_le_length (by omega)]
        exact List.count_eq_zero_of_not_mem (fun h => hs (List.mem_of_mem_take h))
      simp [List.count_cons, htake]
    · have hn2 : n = s.length := by omega
      subst hn2
      simp

theorem loadLoop_ok (filename : String) (columns : List String) (lines : List String)
    (data : List (List String))
    (h : ∀ line ∈ lines, (parseCSVLine line).length = columns.length) :
    loadLoop filename columns lines data = (data ++ lines.map parseCSVLine, .ok ()) := by
  induction lines generalizing data with
  | nil => simp [loadLoop]
  | cons line rest ih =>
    have h1 := h line (List.mem_cons_self _ _)
    simp [loadLoop, h1, ih _ (fun l hl => h l (List.mem_cons_of_mem _ hl))]

theorem loadLoop_fail (filename : String) (columns : List String)
    (good : List String) (bad : String) (tail : List String) (data : List (List String))
    (hg : ∀ line ∈ good, (parseCSVLine line).length = columns.length)
    (hb : (parseCSVLine bad).length ≠ columns.length) :
    loadLoop filename columns (good ++ bad :: tail) data =
      (data ++ good.map parseCSVLine,
        .error (.runtime_error ("CSV format error in " ++ filename))) := by
  induction good generalizing data with
  | nil => simp [loadLoop, hb]
  | cons line rest ih =>
    have h1 := hg line (List.mem_cons_self _ _)
    simp [loadLoop, h1, ih _ (fun l hl => hg l (List.mem_cons_of_mem _ hl))]

theorem lines_split (columns : List String) (lines : List String) :
    (∀ line ∈ lines, (parseCSVLine line).length = columns.length) ∨
      ∃ good bad tail, lines = good ++ bad :: tail ∧
        (∀ line ∈ good, (parseCSVLine line).length = columns.length) ∧
        (parseCSVLine bad).length ≠ columns.length := by
  induction lines with
  | nil => left; simp
  | cons line rest ih =>
    by_cases h1 : (parseCSVLine line).length = columns.length
    · rcases ih with hall | ⟨good, bad, tail, hsplit, hg, hb⟩
      · left
        intro l hl
        rcases List.mem_cons.mp hl with e | e
        · rw [e]; exact h1
        · exact hall l e
      · right
        refine ⟨line :: good, bad, tail, by simp [hsplit], ?_, hb⟩
        intro l hl
        rcases List.mem_cons.mp hl with e | e
        · rw [e]; exact h1
        · exact hg l e
    · right
      exact ⟨[], line, rest, rfl, by simp, h1⟩

/-- C13: loading lines into a freshly constructed table fails with the column-count
error (`runtime_error("CSV format error in ...")`, the spec's `SchemaMismatch`) exactly
when some line after the header tokenizes into a number of fields other than the
header's; otherwise it succeeds, the columns are the tokenized header, the rows are the
tokenized later lines in order, and every row has as many cells as there are columns.
Without any line the table stays empty. -/
theorem loadCSV_fresh (filename header : String) (rest : List String) :
    ((loadCSV RelationalDatabase.empty filename (some (header :: rest))).2 =
          .error (.runtime_error ("CSV format error in " ++ filename)) ↔
        ∃ line ∈ rest, (parseCSVLine line).length ≠ (parseCSVLine header).length)
      ∧ ((¬ ∃ line ∈ rest, (parseCSVLine line).length ≠ (parseCSVLine header).length) →
          loadCSV RelationalDatabase.empty filename (some (header :: rest)) =
              ({ columns := parseCSVLine header, data := rest.map parseCSVLine }, .ok ())
            ∧ WellFormed { columns := parseCSVLine header, data := rest.map parseCSVLine })
      ∧ loadCSV RelationalDatabase.empty filename (some []) =
          (RelationalDatabase.empty, .ok ()) := by
  refine ⟨?_, ?_, rfl⟩
  · constructor
    · intro h
      rcases lines_split (parseCSVLine header) rest with hall | ⟨good, bad, tail, hs, _, hb⟩
      · simp [loadCSV, loadLoop_ok _ _ _ _ hall] at h
      · exact ⟨bad, by simp [hs], hb⟩
    · rintro ⟨line, hline, hne⟩
      rcases lines_split (parseCSVLine header) rest with hall | ⟨good, bad, tail, hs, hg, hb⟩
      · exact absurd (hall line hline) hne
      · simp [loadCSV, hs, loadLoop_fail _ _ _ _ _ _ hg hb]
  · intro hno
    have hall : ∀ line ∈ rest, (parseCSVLine line).length = (parseCSVLine header).length := by
      intro line hline
      by_contra hne
      exact hno ⟨line, hline, hne⟩
    refine ⟨by simp [loadCSV, loadLoop_ok _ _ _ _ hall, RelationalDatabase.empty], ?_⟩
    intro row hrow
    obtain ⟨line, hline, rfl⟩ := List.mem_map.mp hrow
    exact hall line hline

/-- C14: `parseCSVLine` returns one field more than the line has commas outside
double-quoted regions; a line that is one quote-enclosed field (whatever commas it
embeds) gives one field, and the empty line gives exactly one, empty, field. -/
theorem parseCSVLine_field_count (line : String) :
    (parseCSVLine line).length = commasOutsideQuotes line + 1
      ∧ (∀ s : List Char, '"' ∉ s → (parseCSVLine (String.mk ('"' :: s ++ ['"']))).length = 1)
      ∧ parseCSVLine "" = [""] := by
  have hcount : ∀ l : String, (parseCSVLine l).length = commasOutsideQuotes l + 1 := by
    intro l
    have h := parseLoop_length l 0 l.data [] 0 false
    simp only [parseCSVLine, commasOutsideQuotes]
    simp only [List.length_append, List.length_singleton, h, List.length_nil, Nat.zero_add,
      Bool.false_eq_true, if_false]
  refine ⟨hcount line, ?_, by decide⟩
  intro s hs
  rw [hcount, commasOutsideQuotes_quoted s hs]

/-- C15 (the code departs from the claim): `cleanToken` looks for the quotes at the two
ends of the raw field before it trims, so whitespace outside the quotes hides them: the
raw field ` "b"` comes back as `"b` and `"b" ` as `b"`, and the second field of the line
`a, "b"` is `"b`; a quote character stays in each. -/
theorem cleanToken_keeps_quote_behind_whitespace :
    cleanToken " \"b\"" = "\"b" ∧ cleanToken "\"b\" " = "b\""
      ∧ cleanToken " \"b\" " = "\"b\"" ∧ parseCSVLine "a, \"b\"" = ["a", "\"b"] := by
  decide

/-- C16 (the claim as stated fails): on a fresh table, loading the lines `a,b`, `1,2`,
`3` throws at the third line and leaves the object with the header's columns and the
row of the second line, not as it was before the call. -/
theorem loadCSV_not_atomic :
    (loadCSV RelationalDatabase.empty "t.csv" (some ["a,b", "1,2", "3"])).2 =
        .error (.runtime_error "CSV format error in t.csv")
      ∧ (loadCSV RelationalDatabase.empty "t.csv" (some ["a,b", "1,2", "3"])).1 =
        { columns := ["a", "b"], data := [["1", "2"]] }
      ∧ (loadCSV RelationalDatabase.empty "t.csv" (some ["a,b", "1,2", "3"])).1 ≠
        RelationalDatabase.empty := by
  decide

/-- C16 (amended): when `loadCSV` fails with the column-count error, it fails at the
first data line whose field count differs from the header's, and the object it was
called on then has the tokenized header as its columns and, after the rows it had before
the call, the rows of the data lines that precede that line; the mismatching line and
the lines after it add nothing. -/
theorem loadCSV_state_on_mismatch (db : RelationalDatabase) (filename : String)
    (lines : List String)
    (h : (loadCSV db filename (some lines)).2 =
      .error (.runtime_error ("CSV format error in " ++ filename))) :
    ∃ header good bad tail, lines = header :: (good ++ bad :: tail) ∧
      (∀ line ∈ good, (parseCSVLine line).length = (parseCSVLine header).length) ∧
      (parseCSVLine bad).length ≠ (parseCSVLine header).length ∧
      (loadCSV db filename (some lines)).1 =
        { columns := parseCSVLine header, data := db.data ++ good.map parseCSVLine } := by
  cases lines with
  | nil => simp [loadCSV] at h
  | cons header rest =>
    rcases lines_split (parseCSVLine header) rest with hall | ⟨good, bad, tail, hs, hg, hb⟩
    · simp [loadCSV, loadLoop_ok _ _ _ _ hall] at h
    · exact ⟨header, good, bad, tail, by rw [hs], hg, hb,
        by simp [loadCSV, hs, loadLoop_fail _ _ _ _ _ _ hg hb]⟩

theorem loadCSV_state_on_mismatch_witness :
    ∃ header good bad tail, ["a,b", "1,2", "3"] = header :: (good ++ bad :: tail) ∧
      (∀ line ∈ good, (parseCSVLine line).length = (parseCSVLine header).length) ∧
      (parseCSVLine bad).length ≠ (parseCSVLine header).length ∧
      (loadCSV leftTable "t.csv" (some ["a,b", "1,2", "3"])).1 =
        { columns := parseCSVLine header,
          data := leftTable.data ++ good.map parseCSVLine } :=
  loadCSV_state_on_mismatch leftTable "t.csv" ["a,b", "1,2", "3"] (by decide)

/-! ## The operators never write to their inputs -/

theorem selectLoopS_frame (colIndex : Nat) (value : String) (rows : List (List String))
    (st : Store) :
    (selectLoopS colIndex value rows st).1.self = st.self ∧
      (selectLoopS colIndex value rows st).1.other = st.other := by
  induction rows generalizing st with
  | nil => simp [selectLoopS]
  | cons row rest ih =>
    unfold selectLoopS
    cases cell row colIndex with
    | error e => simp
    | ok c =>
      by_cases hc : c = value
      · simpa [hc] using ih (st.pushRow row)
      · simpa [hc] using ih st

theorem selectLoopS_agrees (colIndex : Nat) (value : String) (rows : List (List String))
    (st : Store) :
    (∀ d, selectLoop colIndex value rows st.result.data = .ok d →
        selectLoopS colIndex value rows st =
          ({ st with result := { st.result with data := d } }, .ok ())) ∧
      (∀ e, selectLoop colIndex value rows st.result.data = .error e →
        (selectLoopS colIndex value rows st).2 = .error e) := by
  induction rows generalizing st with
  | nil =>
    constructor
    · intro d hd
      simp only [selectLoop, Except.ok.injEq] at hd
      subst hd
      rfl
    · intro e he
      simp [selectLoop] at he
  | cons row rest ih =>
    unfold selectLoopS selectLoop
    cases cell row colIndex with
    | error e =>
      constructor
      · intro d hd; cases hd
      · intro e2 he; cases he; rfl
    | ok c =>
      by_cases hc : c = value
      · simpa [hc, Store.pushRow] using ih (st.pushRow row)
      · simpa [hc] using ih st

theorem projectColsS_frame (cols : List String) (indices : List Nat) (st : Store) :
    (projectColsS cols indices st).1.self = st.self ∧
      (projectColsS cols indices st).1.other = st.other := by
  induction cols generalizing indices st with
  | nil => simp [projectColsS]
  | cons col rest ih =>
    unfold projectColsS
    by_cases hc : findIndex st.self.columns col = st.self.columns.length
    · simp [hc]
    · simpa [hc] using ih _ (st.pushColumn col)

theorem projectColsS_agrees (cols : List String) (indices : List Nat) (st : Store) :
    (∀ p, projectCols st.self.columns cols (indices, st.result.columns) = .ok p →
        projectColsS cols indices st =
          ({ st with result := { st.result with columns := p.2 } }, .ok p.1)) ∧
      (∀ e, projectCols st.self.columns cols (indices, st.result.columns) = .error e →
        (projectColsS cols indices st).2 = .error e) := by
  induction cols generalizing indices st with
  | nil =>
    constructor
    · intro p hp
      simp only [projectCols, Except.ok.injEq] at hp
      subst hp
      rfl
    · intro e he
      simp [projectCols] at he
  | cons col rest ih =>
    unfold projectColsS projectCols
    by_cases hc : findIndex st.self.columns col = st.self.columns.length
    · simp [hc]
    · simpa [hc, Store.pushColumn] using ih (indices ++ [findIndex st.self.columns col])
        (st.pushColumn col)

theorem projectLoopS_frame (indices : List Nat) (rows : List (List String)) (st : Store) :
    (projectLoopS indices rows st).1.self = st.self ∧
      (projectLoopS indices rows st).1.other = st.other := by
  induction rows generalizing st with
  | nil => simp [projectLoopS]
  | cons row rest ih =>
    unfold projectLoopS
    cases projectRow row indices [] with
    | error e => simp
    | ok prow => simpa using ih (st.pushRow prow)

theorem projectLoopS_agrees (indices : List Nat) (rows : List (List String)) (st : Store) :
    (∀ d, projectLoop indices rows st.result.data = .ok d →
        projectLoopS indices rows st =
          ({ st with result := { st.result with data := d } }, .ok ())) ∧
      (∀ e, projectLoop indices rows st.result.data = .error e →
        (projectLoopS indices rows st).2 = .error e) := by
  induction rows generalizing st with
  | nil =>
    constructor
    · intro d hd
      simp only [projectLoop, Except.ok.injEq] at hd
      subst hd
      rfl
    · intro e he
      simp [projectLoop] at he
  | cons row rest ih =>
    unfold projectLoopS projectLoop
    cases projectRow row indices [] with
    | error e =>
      constructor
      · intro d hd; cases hd
      · intro e2 he; cases he; rfl
    | ok prow => simpa [Store.pushRow] using ih (st.pushRow prow)

theorem mergeSchemaS_eq (cols : List String) (st : Store) :
    mergeSchemaS cols st =
      { st with result :=
          { st.result with columns := mergeSchema st.self.columns cols st.result.columns } } := by
  induction cols generalizing st with
  | nil => simp [mergeSchemaS, mergeSchema]
  | cons col rest ih =>
    unfold mergeSchemaS mergeSchema
    by_cases hc : findIndex st.self.columns col = st.self.columns.length
    · simp [hc, ih, Store.pushColumn]
    · simp [hc, ih]

theorem emitBucketS_eq (otherCol : Nat) (row : List String) (bucket : List (List String))
    (st : Store) :
    emitBucketS otherCol row bucket st =
      { st with result :=
          { st.result with data := emitBucket otherCol row bucket st.result.data } } := by
  induction bucket generalizing st with
  | nil => simp [emitBucketS, emitBucket]
  | cons otherRow rest ih => simp [emitBucketS, emitBucket, ih, Store.pushRow]

theorem joinLoopS_frame (thisCol otherCol : Nat) (otherMap : RowMap)
    (rows : List (List String)) (st : Store) :
    (joinLoopS thisCol otherCol otherMap rows st).1.self = st.self ∧
      (joinLoopS thisCol otherCol otherMap rows st).1.other = st.other := by
  induction rows generalizing st with
  | nil => simp [joinLoopS]
  | cons row rest ih =>
    unfold joinLoopS
    cases cell row thisCol with
    | error e => simp
    | ok key =>
      cases hf : RowMap.find otherMap key with
      | none => simpa [hf] using ih st
      | some bucket =>
        simpa [hf, emitBucketS_eq] using ih (emitBucketS otherCol row bucket st)

theorem joinLoopS_agrees (thisCol otherCol : Nat) (otherMap : RowMap)
    (rows : List (List String)) (st : Store) :
    (∀ d, joinLoop thisCol otherCol otherMap rows st.result.data = .ok d →
        joinLoopS thisCol otherCol otherMap rows st =
          ({ st with result := { st.result with data := d } }, .ok ())) ∧
      (∀ e, joinLoop thisCol otherCol otherMap rows st.result.data = .error e →
        (joinLoopS thisCol otherCol otherMap rows st).2 = .error e) := by
  induction rows generalizing st with
  | nil =>
    constructor
    · intro d hd
      simp only [joinLoop, Except.ok.injEq] at hd
      subst hd
      rfl
    · intro e he
      simp [joinLoop] at he
  | cons row rest ih =>
    unfold joinLoopS joinLoop
    cases cell row thisCol with
    | error e =>
      constructor
      · intro d hd; cases hd
      · intro e2 he; cases he; rfl
    | ok key =>
      cases hf : RowMap.find otherMap key with
      | none => simpa [hf] using ih st
      | some bucket =>
        simpa [hf, emitBucketS_eq] using ih (emitBucketS otherCol row bucket st)

theorem agrees_error {run : Store × Except Failure Unit} {e : Failure}
    (h : run.2 = .error e) : Agrees run (.error e) := h

theorem agrees_ok {run : Store × Except Failure Unit} {t : RelationalDatabase}
    (h1 : run.2 = .ok ()) (h2 : run.1.result = t) : Agrees run (.ok t) := ⟨h1, h2⟩

theorem selectRun_agrees (column value : String) (st : Store) :
    Agrees (selectRun column value st) (select st.self column value) := by
  have h := selectLoopS_agrees (findIndex st.self.columns column) value st.self.data
    (st.declareResult.setColumns st.self.columns)
  have hrun : selectRun column value st =
      selectLoopS (findIndex st.self.columns column) value st.self.data
        (st.declareResult.setColumns st.self.columns) := rfl
  have hdata : (st.declareResult.setColumns st.self.columns).result.data = [] := rfl
  rw [hdata] at h
  cases hl : selectLoop (findIndex st.self.columns column) value st.self.data [] with
  | error e =>
    have hp : select st.self column value = .error e := by simp [select, hl]
    rw [hp]
    exact agrees_error (by rw [hrun]; exact h.2 e hl)
  | ok d =>
    have hp : select st.self column value = .ok { data := d, columns := st.self.columns } := by
      simp [select, hl]
    rw [hp, hrun, h.1 d hl]
    exact agrees_ok rfl rfl

theorem projectRun_agrees (cols : List String) (st : Store) :
    Agrees (projectRun cols st) (project st.self cols) := by
  have h := projectColsS_agrees cols [] st.declareResult
  have hcols : st.declareResult.result.columns = [] := rfl
  have hself : st.declareResult.self = st.self := rfl
  rw [hcols, hself] at h
  cases hc : projectCols st.self.columns cols ([], []) with
  | error e =>
    have hp : project st.self cols = .error e := by
      simp [project, RelationalDatabase.empty, hc]
    have h2 := h.2 e hc
    rw [hp]
    apply agrees_error
    unfold projectRun
    cases hS : projectColsS cols [] st.declareResult with
    | mk st1 out =>
      rw [hS] at h2
      simp only at h2
      subst h2
      rfl
  | ok p =>
    obtain ⟨indices, rcols⟩ := p
    have hS := h.1 _ hc
    simp only at hS
    have hl := projectLoopS_agrees indices st.self.data
      { st.declareResult with result := { st.declareResult.result with columns := rcols } }
    have hdata : ({ st.declareResult with
        result := { st.declareResult.result with columns := rcols } } : Store).result.data = [] :=
      rfl
    rw [hdata] at hl
    have hrun : projectRun cols st = projectLoopS indices st.self.data
        { st.declareResult with result := { st.declareResult.result with columns := rcols } } := by
      unfold projectRun
      rw [hS]
      rfl
    cases hpl : projectLoop indices st.self.data [] with
    | error e =>
      have hp : project st.self cols = .error e := by
        simp [project, RelationalDatabase.empty, hc, hpl]
      rw [hp]
      exact agrees_error (by rw [hrun]; exact hl.2 e hpl)
    | ok d =>
      have hp : project st.self cols = .ok { data := d, columns := rcols } := by
        simp [project, RelationalDatabase.empty, hc, hpl]
      rw [hp, hrun, hl.1 d hpl]
      exact agrees_ok rfl rfl

theorem joinRun_agrees (joinCol : String) (st : Store) :
    Agrees (joinRun joinCol st) (join st.self st.other joinCol) := by
  cases h1 : getColumnIndex st.self joinCol with
  | error e =>
    have hp : join st.self st.other joinCol = .error e := by simp [join, h1]
    rw [hp]
    exact agrees_error (by simp [joinRun, Store.declareResult, h1])
  | ok thisCol =>
    cases h2 : getColumnIndex st.other joinCol with
    | error e =>
      have hp : join st.self st.other joinCol = .error e := by simp [join, h1, h2]
      rw [hp]
      exact agrees_error (by simp [joinRun, Store.declareResult, h1, h2])
    | ok otherCol =>
      cases h3 : buildMap otherCol st.other.data [] with
      | error e =>
        have hp : join st.self st.other joinCol = .error e := by simp [join, h1, h2, h3]
        rw [hp]
        exact agrees_error (by simp [joinRun, Store.declareResult, h1, h2, h3])
      | ok otherMap =>
        have hrun : joinRun joinCol st = joinLoopS thisCol otherCol otherMap st.self.data
            { self := st.self, other := st.other,
              result := { data := [], columns :=
                mergeSchema st.self.columns st.other.columns st.self.columns } } := by
          simp [joinRun, Store.declareResult, Store.setColumns, RelationalDatabase.empty, h1, h2,
            h3, mergeSchemaS_eq]
        have hl := joinLoopS_agrees thisCol otherCol otherMap st.self.data
          { self := st.self, other := st.other,
            result := { data := [], columns :=
              mergeSchema st.self.columns st.other.columns st.self.columns } }
        simp only at hl
        cases hj : joinLoop thisCol otherCol otherMap st.self.data [] with
        | error e =>
          have hp : join st.self st.other joinCol = .error e := by
            simp [join, RelationalDatabase.empty, h1, h2, h3, hj]
          rw [hp]
          exact agrees_error (by rw [hrun]; exact hl.2 e hj)
        | ok d =>
          have hp : join st.self st.other joinCol = .ok
              { data := d,
                columns := mergeSchema st.self.columns st.other.columns st.self.columns } := by
            simp [join, RelationalDatabase.empty, h1, h2, h3, hj]
          rw [hp, hrun, hl.1 d hj]
          exact agrees_ok rfl rfl

theorem selectRun_frame (column value : String) (st : Store) :
    (selectRun column value st).1.self = st.self ∧
      (selectRun column value st).1.other = st.other := by
  unfold selectRun
  exact selectLoopS_frame _ _ _ _

theorem projectRun_frame (cols : List String) (st : Store) :
    (projectRun cols st).1.self = st.self ∧ (projectRun cols st).1.other = st.other := by
  unfold projectRun
  have h1 := projectColsS_frame cols [] st.declareResult
  cases hc : projectColsS cols [] st.declareResult with
  | mk st1 out =>
    rw [hc] at h1
    cases out with
    | error e => exact h1
    | ok indices =>
      have h2 := projectLoopS_frame indices st1.self.data st1
      simp only at h1 ⊢
      exact ⟨h2.1.trans h1.1, h2.2.trans h1.2⟩

theorem joinRun_frame (joinCol : String) (st : Store) :
    (joinRun joinCol st).1.self = st.self ∧ (joinRun joinCol st).1.other = st.other := by
  cases h1 : getColumnIndex st.self joinCol with
  | error e => simp [joinRun, Store.declareResult, h1]
  | ok thisCol =>
    cases h2 : getColumnIndex st.other joinCol with
    | error e => simp [joinRun, Store.declareResult, h1, h2]
    | ok otherCol =>
      cases h3 : buildMap otherCol st.other.data [] with
      | error e => simp [joinRun, Store.declareResult, h1, h2, h3]
      | ok otherMap =>
        have hrun : joinRun joinCol st = joinLoopS thisCol otherCol otherMap st.self.data
            { self := st.self, other := st.other,
              result := { data := [], columns :=
                mergeSchema st.self.columns st.other.columns st.self.columns } } := by
          simp [joinRun, Store.declareResult, Store.setColumns, RelationalDatabase.empty, h1, h2,
            h3, mergeSchemaS_eq]
        rw [hrun]
        exact joinLoopS_frame _ _ _ _ _

/-- C17: whatever the arguments and whether the call returns a table or fails, the table
`select`, `project` or `join` is called on, and the table passed to `join`, have the same
columns and rows after the call as before it; the runs these are stated for compute
exactly what the operators compute. -/
theorem operators_leave_inputs_unchanged (st : Store) (column value joinCol : String)
    (cols : List String) :
    ((selectRun column value st).1.self = st.self ∧
        (selectRun column value st).1.other = st.other)
      ∧ ((projectRun cols st).1.self = st.self ∧ (projectRun cols st).1.other = st.other)
      ∧ ((joinRun joinCol st).1.self = st.self ∧ (joinRun joinCol st).1.other = st.other)
      ∧ Agrees (selectRun column value st) (select st.self column value)
      ∧ Agrees (projectRun cols st) (project st.self cols)
      ∧ Agrees (joinRun joinCol st) (join st.self st.other joinCol) :=
  ⟨selectRun_frame column value st, projectRun_frame cols st, joinRun_frame joinCol st,
    selectRun_agrees column value st, projectRun_agrees cols st, joinRun_agrees joinCol st⟩

/-- What `cleanToken` does guarantee: the token it returns neither starts nor ends with a
whitespace character, and a raw field that starts and ends with a double quote comes
back as the text between them, trimmed. -/
theorem cleanToken_trimmed (token : String) :
    (∀ c, (cleanToken token).data.head? = some c → isspace c = false)
      ∧ (∀ c, (cleanToken token).data.getLast? = some c → isspace c = false)
      ∧ ∀ s : List Char, cleanToken (String.mk ('"' :: s ++ ['"'])) =
          String.mk ((s.dropWhile isspace).rdropWhile isspace) := by
  refine ⟨?_, ?_, ?_⟩
  · intro c hc
    simp only [cleanToken] at hc
    generalize ht : (if (!token.data.isEmpty && decide (token.data.head? = some '"')) = true
      then token.data.tail else token.data) = t1 at hc
    generalize ht2 : (if (!t1.isEmpty && decide (t1.getLast? = some '"')) = true
      then t1.dropLast else t1) = t2 at hc
    have hne : (t2.dropWhile isspace).rdropWhile isspace ≠ [] := by
      intro h; rw [h] at hc; cases hc
    have hne2 : t2.dropWhile isspace ≠ [] := by
      intro h; rw [h] at hne; exact hne rfl
    rw [List.head?_eq_head hne] at hc
    cases hc
    rw [(List.rdropWhile_prefix isspace (t2.dropWhile isspace)).head hne]
    exact List.head_dropWhile_not isspace t2 hne2
  · intro c hc
    simp only [cleanToken] at hc
    generalize ht : (if (!token.data.isEmpty && decide (token.data.head? = some '"')) = true
      then token.data.tail else token.data) = t1 at hc
    generalize ht2 : (if (!t1.isEmpty && decide (t1.getLast? = some '"')) = true
      then t1.dropLast else t1) = t2 at hc
    have hne : (t2.dropWhile isspace).rdropWhile isspace ≠ [] := by
      intro h; rw [h] at hc; cases hc
    rw [List.getLast?_eq_getLast _ hne] at hc
    cases hc
    simpa using List.rdropWhile_last_not isspace (t2.dropWhile isspace) hne
  · intro s
    simp [cleanToken, List.getLast?_append]

end HomemadeDB
